import Mathlib

/-!
Verification development for the `remark-mermaid` plugin
(`src/mermaidRender.ts`): a shallow embedding of the metadata parser,
render invoker, node rewriter and recursive tree transformer, together
with theorems checking the natural-language specification against it.
-/

namespace RemarkMermaid

/-! ## JS string primitives, modelled structurally

The source uses `String.prototype.split` with a one-character separator
(`nd.meta.split(" ")`, `v.split("=")`) and `String.prototype.toLowerCase`.
We model them character-list-wise so every definition reduces in the
kernel.  JS `"".split(sep)` yields `[""]`, and consecutive separators
yield empty segments; `splitCh` reproduces exactly that.
-/

/-- JS `s.split(sep)` for a one-character separator, on the character list. -/
def splitCh (sep : Char) : List Char → List (List Char)
  | [] => [[]]
  | a :: rest =>
    match splitCh sep rest with
    | [] => [[]]
    | t :: ts => if a = sep then [] :: t :: ts else (a :: t) :: ts

/-- JS `s.split(sep)` for a one-character separator, on strings. -/
def jsSplit (sep : Char) (s : String) : List String :=
  (splitCh sep s.data).map String.mk

/-- ASCII lower-casing of one character; models JS `toLowerCase` on the
ASCII range (the only range exercised by identifiers in this plugin). -/
def toLowerCh (c : Char) : Char :=
  if 'A' ≤ c ∧ c ≤ 'Z' then Char.ofNat (c.toNat + 32) else c

/-- JS `name.toLowerCase()` (ASCII fragment). -/
def toLowerCase (s : String) : String :=
  String.mk (s.data.map toLowerCh)

/-- Does the string start with `/`?  Used by the model of `path.resolve`. -/
def isAbsolute (s : String) : Bool :=
  match s.data with
  | '/' :: _ => true
  | _ => false

/-- Model of Node's `path.resolve(cwd, file)` for the cases this plugin
exercises: `cwd` absolute and `file` free of `.`/`..` segments.  An
absolute `file` wins; otherwise it is joined onto `cwd`. -/
def pathResolve (cwd file : String) : String :=
  if isAbsolute file then file else cwd ++ "/" ++ file

/-! ## Metadata parser

Source (`transformMermaidBlock`, mermaidRender.ts lines 615–618):

    const meta = nd.meta.split(" ").map(v => v.split("=") as [string,string]);
    const parsedMeta = meta.reduce((c, [k,v]) => ({[k]: v, ...c}), {});

`v.split("=")` splits on every `=`; the destructuring `[k, v]` keeps the
first two segments only, so `k` is the text before the first `=` and `v`
the text between the first and second `=` (`undefined` when the token has
no `=`).  The accumulator object `{[k]: v, ...c}` spreads the previously
accumulated entries *after* the new key, so an existing key overrides the
incoming one: the first occurrence of a key wins.
-/

/-- One annotation token `v.split("=")` destructured as `[k, v]`:
the key is the first segment, the value the second (`none` when the token
contained no `=`; later segments are discarded by the destructuring). -/
def splitEq (tok : String) : String × Option String :=
  let parts := jsSplit '=' tok
  (parts.headD "", parts.get? 1)

/-- The token list `nd.meta.split(" ").map(v => v.split("="))`. -/
def metaTokens (m : String) : List (String × Option String) :=
  (jsSplit ' ' m).map splitEq

/-- JS `k in obj` on the association-list model of an object. -/
def hasKey (obj : List (String × Option String)) (k : String) : Bool :=
  obj.any (fun e => e.1 == k)

/-- The object literal `{[k]: v, ...c}`: its value at an existing key is
`c`'s (the spread overrides the fresh entry), at a fresh key the new `v`.
On the unique-key association-list model that is: keep `c` when the key is
present, otherwise append the entry. -/
def jsSpreadInsert (c : List (String × Option String))
    (kv : String × Option String) : List (String × Option String) :=
  if hasKey c kv.1 then c else c ++ [kv]

/-- `meta.reduce((c, [k,v]) => ({[k]: v, ...c}), {})`. -/
def parsedMetaOf (m : String) : List (String × Option String) :=
  (metaTokens m).foldl jsSpreadInsert []

/-- Property access `parsedMeta[k]` as JS sees it: `none` both when the
key is absent and when it is present with value `undefined`. -/
def jget (obj : List (String × Option String)) (k : String) : Option String :=
  (obj.lookup k).join

/-! ## The mdast node model

The mdast union is discriminated by `type`.  The variants the transformer
distinguishes are: `code` nodes (carrying optional `lang` and `meta` plus
the code `value`), the two replacement-node kinds it constructs
(`imageReference`, `definition`), generic value leaves (`text`, `html`, …,
collapsed into `other` with their `type` tag), and container nodes
(`root`, `paragraph`, …: any node with a `children` array, collapsed into
`container` with their `type` tag).  `referenceType` is carried as its
string value (`"shortcut"`, `"collapsed"`, `"full"`). -/
inductive MNode where
  | code (lang : Option String) (meta : Option String) (value : String)
  | imageReference (identifier label referenceType alt : String)
  | definition (identifier label url : String) (title : Option String)
  | other (type : String) (value : String)
  | container (type : String) (children : List MNode)
  deriving Repr

/-- The `type` field of a node. -/
def nodeType : MNode → String
  | .code _ _ _ => "code"
  | .imageReference _ _ _ _ => "imageReference"
  | .definition _ _ _ _ => "definition"
  | .other t _ => t
  | .container t _ => t

/-- The `children` field: present exactly on container nodes. -/
def childrenOf : MNode → Option (List MNode)
  | .container _ cs => some cs
  | _ => none

/-- The `url` field of a definition node. -/
def urlOf : MNode → Option String
  | .definition _ _ u _ => some u
  | _ => none

/-- The `referenceType` field of an imageReference node. -/
def referenceTypeOf : MNode → Option String
  | .imageReference _ _ r _ => some r
  | _ => none

/-- The `identifier` field of the two reference-carrying node kinds. -/
def identifierOf : MNode → Option String
  | .imageReference i _ _ _ => some i
  | .definition i _ _ _ => some i
  | _ => none

/-- `has(a, {type: "code", lang: "mermaid"})` (mermaidRender.ts lines
510–512, instantiated at lines 717–720): strict equality of the `type`
and `lang` fields.  Only `code` nodes carry `lang`; on every other
variant `a.lang` is `undefined` and the check fails. -/
def isMermaidCandidate : MNode → Bool
  | .code lang _ _ => lang == some "mermaid"
  | _ => false

/-! ## Failure modes

The JS functions can reject (async throw).  `typeError` stands for the
`TypeError` raised by dereferencing `undefined` (`nd.meta.split` with
`meta` absent, `path.resolve(cwd, undefined)`, `name.toLowerCase()` with
`name` undefined); `renderError` / `ioError` for a rejection of
`renderMermaid` / `writeFile`; `notRoot` for `mustRoot`'s
`Error("<type> is not root")`; `neverHappen` for `mermaidGuardless`'s
`Error("this should never happen")`. -/
inductive TErr where
  | typeError
  | renderError (msg : String)
  | ioError (msg : String)
  | notRoot (type : String)
  | neverHappen
  deriving Repr, DecidableEq

/-- The transformer options and ambient effects: the document's base
directory (`file.cwd` from the `VFile`), the external render engine
(`renderMermaid`: diagram source ↦ svg text, or an engine rejection) and
the file system (`writeFile`: path, data ↦ unit, or an I/O rejection). -/
structure Env where
  cwd : String
  renderMermaid : String → Except String String
  writeFile : String → String → Except String Unit

/-! ## Render invoker

Source (mermaidRender.ts lines 641–651):

    const { file: { cwd } } = opts
    const { parsedMeta: { file: fileTarget }, value: mermaidCode } = mermaid;
    const filepath = path.resolve(cwd, fileTarget);
    await promisify(writeFile)(filepath, await renderMermaid(mermaidCode, opts))
    return filepath;

`fileTarget` is typed `string` but can in fact be `undefined` (a bare
`file` token with no `=` passes the `contains` check); `path.resolve`
then throws a `TypeError`. -/
def createRender (env : Env) (fileTarget : Option String)
    (mermaidCode : String) : Except TErr String :=
  match fileTarget with
  | none => .error .typeError
  | some ft =>
    let filepath := pathResolve env.cwd ft
    match env.renderMermaid mermaidCode with
    | .error e => .error (.renderError e)
    | .ok svg =>
      match env.writeFile filepath svg with
      | .error e => .error (.ioError e)
      | .ok _ => .ok filepath

/-! ## Node rewriter

Source (`transformParsedMermaidBlock`, mermaidRender.ts lines 654–687):
identifier is `name.toLowerCase()`, both nodes share identifier and the
original-case `name` as label, the imageReference's referenceType is the
literal `shortcut`, its alt is `alt ?? name`, the definition's url is the
`svgFile` argument and its title is `alt`. -/
def transformParsedMermaidBlock (svgFile name : String) (alt : Option String) :
    MNode × MNode :=
  let identifier := toLowerCase name
  ( .imageReference identifier name "shortcut" (alt.getD name),
    .definition identifier name svgFile alt )

/-! ## Per-block transformation

Source (`transformMermaidBlock`, mermaidRender.ts lines 612–635).  It
parses `nd.meta` (throwing when `meta` is `undefined`), returns `false`
when `file` or `name` is not a key of the parsed object, otherwise awaits
`createRender` — whose returned resolved path is **discarded** — and
builds the replacement pair from the raw `file` value (`imageFilePath`).
A key present with an `undefined` value passes the `contains` check; the
`undefined` value then surfaces as a `TypeError` inside `createRender`
(for `file`) or at `name.toLowerCase()` (for `name`). -/
def transformMermaidBlock (env : Env) (meta : Option String)
    (value : String) : Except TErr (Option (MNode × MNode)) :=
  match meta with
  | none => .error .typeError
  | some m =>
    let parsedMeta := parsedMetaOf m
    if hasKey parsedMeta "file" && hasKey parsedMeta "name" then
      match createRender env (jget parsedMeta "file") value with
      | .error e => .error e
      | .ok _filepath =>
        match jget parsedMeta "file", jget parsedMeta "name" with
        | some imageFilePath, some name =>
          .ok (some (transformParsedMermaidBlock imageFilePath name
            (jget parsedMeta "alt")))
        | _, none => .error .typeError
        | none, _ => .error .typeError
    else
      .ok none

/-! ## Tree transformer

Source (`_transformer`, mermaidRender.ts lines 698–728).  For a node with
a `children` array it first transforms every child (the source fires the
child transformations concurrently through `Promise.all`; the model
sequences them, which coincides with the source on the result value
whenever at most one child rejects) and assigns the one-level flattening
of the results back to `a.children`.  It then tests the node itself with
`has(a, {type:"code", lang:"mermaid"})`; non-candidates are returned as a
single node, candidates go through `transformMermaidBlock`, whose `false`
result means "return the node unchanged" and whose pair result is
returned as the two-element replacement.  The JS value `node | [node,
node]` is modelled as a `List MNode` of length one or two;
`mappings.flat()` is the flattening of those lists. -/
mutual

def transformer (env : Env) : MNode → Except TErr (List MNode)
  | .container t cs =>
    match transformMany env cs with
    | .error e => .error e
    | .ok mappings => .ok [.container t mappings.flatten]
  | .code lang meta value =>
    if lang == some "mermaid" then
      match transformMermaidBlock env meta value with
      | .error e => .error e
      | .ok none => .ok [.code lang meta value]
      | .ok (some (m, d)) => .ok [m, d]
    else
      .ok [.code lang meta value]
  | n => .ok [n]

/-- `Promise.all(a.children.map(child => _transformer(child, opts)))`. -/
def transformMany (env : Env) : List MNode → Except TErr (List (List MNode))
  | [] => .ok []
  | c :: cs =>
    match transformer env c with
    | .error e => .error e
    | .ok l =>
      match transformMany env cs with
      | .error e => .error e
      | .ok ls => .ok (l :: ls)

end

/-! ## Entry points (mermaidRender.ts lines 520–553) -/

/-- `mustRoot` (lines 520–524): throw unless `nd.type === "root"`. -/
def mustRoot (nd : MNode) : Except TErr MNode :=
  if nodeType nd ≠ "root" then .error (.notRoot (nodeType nd))
  else .ok nd

/-- `mermaidGuardless` (lines 538–553): run the transformer on the root
and throw `"this should never happen"` if the result is the array form
rather than a single node. -/
def mermaidGuardless (env : Env) (ast : MNode) : Except TErr MNode :=
  match transformer env ast with
  | .error e => .error e
  | .ok [resp] => .ok resp
  | .ok _ => .error .neverHappen

/-- `mermaidRender` (lines 528–535): guard with `mustRoot`, then hand the
node to the guardless transformer. -/
def mermaidRender (env : Env) (node : MNode) : Except TErr MNode :=
  match mustRoot node with
  | .error e => .error e
  | .ok root => mermaidGuardless env root

/-! ## Identity-tracking embedding of the transformer

`_transformer` is not pure over object identities: for a node with
children it executes `a.children = mappings.flat()` (line 711) and then
`return ast` — the *same* JS object, mutated.  To reason about mutation
we re-embed the transformer over nodes annotated with a heap identity
`nid : Nat`.  Returning a node with the identity of an input node models
returning that very object; a differing payload under the same identity
models an in-place mutation visible to anyone holding the input tree.
Fresh identities (for the replacement pair, the only nodes the source
constructs) are drawn from a counter threaded through the traversal. -/
inductive INode where
  | code (lang : Option String) (meta : Option String) (value : String) (nid : Nat)
  | imageReference (identifier label referenceType alt : String) (nid : Nat)
  | definition (identifier label url : String) (title : Option String) (nid : Nat)
  | other (type : String) (value : String) (nid : Nat)
  | container (type : String) (children : List INode) (nid : Nat)
  deriving Repr

/-- The identity of a node. -/
def inid : INode → Nat
  | .code _ _ _ i => i
  | .imageReference _ _ _ _ i => i
  | .definition _ _ _ _ i => i
  | .other _ _ i => i
  | .container _ _ i => i

/-- Annotate a leaf node produced by `transformMermaidBlock` (always an
`imageReference` or a `definition`) with a fresh identity. -/
def annotLeaf : MNode → Nat → INode
  | .code l m v, i => .code l m v i
  | .imageReference a b c d, i => .imageReference a b c d i
  | .definition a b c d, i => .definition a b c d i
  | .other t v, i => .other t v i
  | .container t _, i => .container t [] i

/-- Is this node a container (owner of a `children` array)? -/
def isContainerI : INode → Bool
  | .container _ _ _ => true
  | _ => false

/-- Is this node one of the two replacement-pair kinds the source
constructs? -/
def isReplacementNode : INode → Bool
  | .imageReference _ _ _ _ _ => true
  | .definition _ _ _ _ _ => true
  | _ => false

mutual

/-- `_transformer` over identity-annotated nodes, threading the
fresh-identity counter.  Mirrors `transformer` exactly; a container comes
back under its own identity with its `children` field reassigned (the
`a.children = mappings.flat()` mutation), a replaced Target Block's two
replacement nodes are fresh allocations. -/
def transformerI (env : Env) : INode → Nat → Except TErr (List INode × Nat)
  | .container t cs nid, ctr =>
    match transformManyI env cs ctr with
    | .error e => .error e
    | .ok (mappings, ctr') => .ok ([.container t mappings.flatten nid], ctr')
  | .code lang meta value nid, ctr =>
    if lang == some "mermaid" then
      match transformMermaidBlock env meta value with
      | .error e => .error e
      | .ok none => .ok ([.code lang meta value nid], ctr)
      | .ok (some (m, d)) =>
        .ok ([annotLeaf m ctr, annotLeaf d (ctr + 1)], ctr + 2)
    else
      .ok ([.code lang meta value nid], ctr)
  | n, ctr => .ok ([n], ctr)

/-- The children pass of `transformerI`. -/
def transformManyI (env : Env) : List INode → Nat →
    Except TErr (List (List INode) × Nat)
  | [], ctr => .ok ([], ctr)
  | c :: cs, ctr =>
    match transformerI env c ctr with
    | .error e => .error e
    | .ok (l, ctr') =>
      match transformManyI env cs ctr' with
      | .error e => .error e
      | .ok (ls, ctr'') => .ok (l :: ls, ctr'')

end

mutual

/-- All nodes of a tree (the node itself and, recursively, the nodes of
its children). -/
def allI : INode → List INode
  | .container t cs nid => .container t cs nid :: allIL cs
  | n => [n]

/-- All nodes of a list of trees. -/
def allIL : List INode → List INode
  | [] => []
  | c :: cs => allI c ++ allIL cs

end

/-- Two object identities stand for the same JS object when they carry
the same `nid`; `sameShell m n` says `n` is the very object `m`, possibly
with its `children` field reassigned (the one mutation the transformer
performs). -/
def sameShell (m n : INode) : Prop :=
  m = n ∨ ∃ t cs cs' i, m = .container t cs i ∧ n = .container t cs' i

/-- A Target Block that will actually be replaced (assuming the render
succeeds): a `code` node with `lang === "mermaid"`, a present `meta`
string, and both `file` and `name` among the parsed keys. -/
def isValidTarget : MNode → Bool
  | .code lang (some m) _ =>
    lang == some "mermaid" &&
      (hasKey (parsedMetaOf m) "file" && hasKey (parsedMetaOf m) "name")
  | _ => false

/-! ## Reference definitions written from the claims (not from the source)

`specSplitFirstEqC4`/`specTokensC4`/`specGetC4` transcribe claim C4's
reference definition of the metadata parser: split the annotation on
whitespace into tokens, split each token on the *first* `=` with the
value keeping any later `=` characters, last occurrence of a key wins.

`amendedSplitEq`/`amendedLookup`/`amendedGet` transcribe the amended
description: split on the single space character, key = text before the
first `=`, value = text between the first and the second `=` (`undefined`
when the token has no `=`), first occurrence of a key wins. -/

/-- Split a character list at the first `=`: the part before it and,
when an `=` exists, everything after it (later `=` kept). -/
def splitFirstEq : List Char → List Char × Option (List Char)
  | [] => ([], none)
  | c :: rest =>
    if c = '=' then ([], some rest)
    else
      let kv := splitFirstEq rest
      (c :: kv.1, kv.2)

/-- Split a character list at every whitespace character. -/
def splitWs : List Char → List (List Char)
  | [] => [[]]
  | a :: rest =>
    match splitWs rest with
    | [] => [[]]
    | t :: ts => if a.isWhitespace then [] :: t :: ts else (a :: t) :: ts

/-- Claim C4's tokenisation: the whitespace-separated tokens. -/
def specTokensC4 (m : String) : List String :=
  ((splitWs m.data).map String.mk).filter (fun t => t ≠ "")

/-- Claim C4's per-token split: on the first `=`, the value keeping any
later `=` characters. -/
def specSplitFirstEqC4 (tok : String) : String × Option String :=
  let kv := splitFirstEq tok.data
  (String.mk kv.1, kv.2.map String.mk)

/-- Claim C4's parse result at a key: the value of the last token
carrying that key. -/
def specGetC4 (m k : String) : Option String :=
  ((((specTokensC4 m).map specSplitFirstEqC4).reverse.lookup k)).join

/-- Amended per-token split: key = text before the first `=`, value =
text between the first and the second `=` (`none` without any `=`). -/
def amendedSplitEq (tok : String) : String × Option String :=
  let kv := splitFirstEq tok.data
  (String.mk kv.1, kv.2.map (fun r => String.mk (r.takeWhile (· ≠ '='))))

/-- Amended parse: tokens are the segments between single space
characters, and the first occurrence of a key wins. -/
def amendedLookup (m k : String) : Option (Option String) :=
  ((jsSplit ' ' m).map amendedSplitEq).lookup k

/-- The amended parse result at a key. -/
def amendedGet (m k : String) : Option String :=
  (amendedLookup m k).join

/-! ## Concrete environments and documents used by witnesses -/

/-- An environment whose render engine and file system always succeed. -/
def envOk : Env :=
  { cwd := "/doc"
    renderMermaid := fun _ => .ok "<svg/>"
    writeFile := fun _ _ => .ok () }

/-- An environment whose render engine rejects every diagram. -/
def envBoom : Env :=
  { cwd := "/doc"
    renderMermaid := fun _ => .error "boom"
    writeFile := fun _ _ => .ok () }

/-! # Theorems -/

/-! ## Lemmas about the parsed-metadata object -/

theorem hasKey_eq_isSome (obj : List (String × Option String)) (k : String) :
    hasKey obj k = (obj.lookup k).isSome := by
  induction obj with
  | nil => rfl
  | cons e rest ih =>
    obtain ⟨k0, v0⟩ := e
    rw [List.lookup_cons]
    cases hb : (k == k0) with
    | true =>
      have hb' : (k0 == k) = true := by
        rw [beq_iff_eq] at hb ⊢; exact hb.symm
      simp [hasKey, hb']
    | false =>
      have hb' : (k0 == k) = false := by
        rw [beq_eq_false_iff_ne] at hb ⊢; exact Ne.symm hb
      simp only [hasKey, List.any_cons, hb', Bool.false_or]
      simpa [hasKey] using ih

theorem jget_some_hasKey {obj : List (String × Option String)} {k v : String}
    (h : jget obj k = some v) : hasKey obj k = true := by
  rw [hasKey_eq_isSome]
  unfold jget at h
  cases hl : obj.lookup k with
  | none => rw [hl] at h; simp [Option.join] at h
  | some o => simp

theorem lookup_append (l₁ l₂ : List (String × Option String)) (k : String) :
    (l₁ ++ l₂).lookup k = (l₁.lookup k).or (l₂.lookup k) := by
  induction l₁ with
  | nil =>
    simp only [List.nil_append, List.lookup_nil]
    cases l₂.lookup k <;> rfl
  | cons e rest ih =>
    obtain ⟨k0, v0⟩ := e
    rw [List.cons_append, List.lookup_cons, List.lookup_cons]
    cases hb : (k == k0) with
    | true => rfl
    | false => exact ih

/-- The object built by `reduce((c,[k,v]) => ({[k]:v, ...c}), {})` looks
up every key to the value of the *first* token carrying it. -/
theorem lookup_foldl_jsSpreadInsert (toks : List (String × Option String)) :
    ∀ (acc : List (String × Option String)) (k : String),
      (toks.foldl jsSpreadInsert acc).lookup k = (acc.lookup k).or (toks.lookup k) := by
  induction toks with
  | nil =>
    intro acc k
    simp only [List.foldl_nil, List.lookup_nil]
    cases acc.lookup k <;> rfl
  | cons e rest ih =>
    intro acc k
    obtain ⟨k0, v0⟩ := e
    rw [List.foldl_cons, ih, List.lookup_cons]
    show ((jsSpreadInsert acc (k0, v0)).lookup k).or _ = _
    unfold jsSpreadInsert
    by_cases hk : hasKey acc k0 = true
    · rw [if_pos hk]
      cases hb : (k == k0) with
      | true =>
        have hkk : k = k0 := beq_iff_eq.mp hb
        subst hkk
        rw [hasKey_eq_isSome] at hk
        cases hl : acc.lookup k with
        | none => rw [hl] at hk; simp at hk
        | some o => rfl
      | false => rfl
    · rw [if_neg hk]
      rw [lookup_append]
      cases hb : (k == k0) with
      | true =>
        have hkk : k = k0 := beq_iff_eq.mp hb
        subst hkk
        rw [hasKey_eq_isSome] at hk
        cases hl : acc.lookup k with
        | none =>
          have hsing : ([(k, v0)] : List (String × Option String)).lookup k = some v0 := by
            rw [List.lookup_cons, beq_self_eq_true]
          rw [hsing]; rfl
        | some o => rw [hl] at hk; simp at hk
      | false =>
        have hsing : ([(k0, v0)] : List (String × Option String)).lookup k = none := by
          rw [List.lookup_cons, hb]; rfl
        rw [hsing]
        cases acc.lookup k <;> rfl

/-- Looking a key up in the parsed-metadata object is looking it up in
the token list, first occurrence winning. -/
theorem lookup_parsedMetaOf (m k : String) :
    (parsedMetaOf m).lookup k = (metaTokens m).lookup k := by
  unfold parsedMetaOf
  rw [lookup_foldl_jsSpreadInsert]
  simp [Option.or]

theorem hasKey_parsedMetaOf (m k : String) :
    hasKey (parsedMetaOf m) k = ((metaTokens m).lookup k).isSome := by
  rw [hasKey_eq_isSome, lookup_parsedMetaOf]

theorem jget_parsedMetaOf (m k : String) :
    jget (parsedMetaOf m) k = ((metaTokens m).lookup k).join := by
  unfold jget
  rw [lookup_parsedMetaOf]

/-! ## Lemmas about the character-level split -/

theorem splitCh_ne_nil (sep : Char) (l : List Char) : splitCh sep l ≠ [] := by
  cases l with
  | nil => simp [splitCh]
  | cons a rest =>
    unfold splitCh
    cases splitCh sep rest with
    | nil => simp
    | cons t ts =>
      by_cases h : a = sep <;> simp [h]

theorem splitCh_head (sep : Char) (l : List Char) :
    (splitCh sep l).head? = some (l.takeWhile (fun c => c ≠ sep)) := by
  induction l with
  | nil => rfl
  | cons a rest ih =>
    unfold splitCh
    cases hr : splitCh sep rest with
    | nil => exact absurd hr (splitCh_ne_nil sep rest)
    | cons t ts =>
      rw [hr] at ih
      simp only [List.head?_cons, Option.some.injEq] at ih
      by_cases h : a = sep
      · simp [h, List.takeWhile_cons]
      · simp [h, List.takeWhile_cons, ih]

/-- `splitCh '='` seen through the first `=`: the head is the part
before it, the tail is the split of the part after it. -/
theorem splitCh_eq_splitFirstEq (l : List Char) :
    splitCh '=' l =
      match splitFirstEq l with
      | (k, none) => [k]
      | (k, some rest) => k :: splitCh '=' rest := by
  induction l with
  | nil => rfl
  | cons a rest ih =>
    rcases hr : splitCh '=' rest with _ | ⟨t, ts⟩
    · exact absurd hr (splitCh_ne_nil '=' rest)
    rcases hsf : splitFirstEq rest with ⟨k1, v1⟩
    rw [hr, hsf] at ih
    have hstep : splitCh '=' (a :: rest) =
        if a = '=' then [] :: t :: ts else (a :: t) :: ts := by
      unfold splitCh; rw [hr]
    by_cases h : a = '='
    · have h2 : splitFirstEq (a :: rest) = ([], some rest) := by
        unfold splitFirstEq; rw [if_pos h]
      rw [hstep, if_pos h, h2]
      simp only
      rw [hr]
    · have h2 : splitFirstEq (a :: rest) = (a :: k1, v1) := by
        unfold splitFirstEq
        rw [if_neg h]
        simp only [hsf]
      rw [hstep, if_neg h, h2]
      cases v1 with
      | none =>
        simp only at ih ⊢
        injection ih with hA hB
        subst hA; subst hB
        rfl
      | some r2 =>
        simp only at ih ⊢
        injection ih with hA hB
        subst hA; subst hB
        rfl

/-- The per-token split the source performs (`v.split("=")` destructured
as `[k, v]`) is: key before the first `=`, value between the first and
second `=`. -/
theorem splitEq_eq_amendedSplitEq (tok : String) :
    splitEq tok = amendedSplitEq tok := by
  unfold splitEq amendedSplitEq jsSplit
  rw [splitCh_eq_splitFirstEq]
  cases hf : splitFirstEq tok.data with
  | mk k v =>
    cases v with
    | none => rfl
    | some rest =>
      simp only
      cases hr : splitCh '=' rest with
      | nil => exact absurd hr (splitCh_ne_nil '=' rest)
      | cons t ts =>
        have hh := splitCh_head '=' rest
        rw [hr] at hh
        simp only [List.head?_cons, Option.some.injEq] at hh
        simp [hh]

/-! ## Claim C4 -/

/-- Claim C4 (corrected; this is the counterexample): the parser does
*not* match the claimed reference definition.  On the annotation
`name=a=b file=1 file=2` the code yields `name ↦ "a"` (the value is
truncated at the second `=`, not kept) and `file ↦ "1"` (the first
occurrence wins, not the last), while the claimed definition yields
`name ↦ "a=b"` and `file ↦ "2"`. -/
theorem C4_counterexample :
    jget (parsedMetaOf "name=a=b file=1 file=2") "name" ≠
      specGetC4 "name=a=b file=1 file=2" "name" ∧
    jget (parsedMetaOf "name=a=b file=1 file=2") "file" ≠
      specGetC4 "name=a=b file=1 file=2" "file" := by
  constructor <;> decide

/-- Claim C4 (amended): the metadata parser's result equals the amended
reference definition — split the annotation on the single space
character, split each token at its `=` signs where the key is the text
before the first `=` and the value the text between the first and the
second `=` (`undefined` when the token has no `=`, anything after a
second `=` discarded), and when the same key occurs in several tokens
the value of the *first* occurrence wins. -/
theorem C4_amended_parse (m k : String) :
    jget (parsedMetaOf m) k = amendedGet m k ∧
    hasKey (parsedMetaOf m) k = (amendedLookup m k).isSome := by
  have hmap : metaTokens m = (jsSplit ' ' m).map amendedSplitEq := by
    unfold metaTokens
    exact List.map_congr_left (fun tok _ => splitEq_eq_amendedSplitEq tok)
  constructor
  · rw [jget_parsedMetaOf, hmap]; rfl
  · rw [hasKey_parsedMetaOf, hmap]; rfl

/-! ## Lemmas about the per-block transformation -/

/-- Unfolding equation of `transformer` on a container. -/
theorem transformer_container (env : Env) (t : String) (cs : List MNode) :
    transformer env (.container t cs) =
      match transformMany env cs with
      | .error e => .error e
      | .ok ms => .ok [.container t ms.flatten] := rfl

/-- Unfolding equation of `transformer` on a code node. -/
theorem transformer_code (env : Env) (lang meta : Option String) (value : String) :
    transformer env (.code lang meta value) =
      if lang == some "mermaid" then
        match transformMermaidBlock env meta value with
        | .error e => .error e
        | .ok none => .ok [.code lang meta value]
        | .ok (some (m, d)) => .ok [m, d]
      else .ok [.code lang meta value] := rfl

/-- Unfolding equation of `transformMany` on a cons cell. -/
theorem transformMany_cons (env : Env) (c : MNode) (cs : List MNode) :
    transformMany env (c :: cs) =
      match transformer env c with
      | .error e => .error e
      | .ok l =>
        match transformMany env cs with
        | .error e => .error e
        | .ok ls => .ok (l :: ls) := rfl

/-- A resolving `transformMermaidBlock` with a pair payload implies both
`file` and `name` have actual string values in the parsed metadata. -/
theorem transformMermaidBlock_ok_keys (env : Env) (m value : String)
    (p : MNode × MNode)
    (hok : transformMermaidBlock env (some m) value = .ok (some p)) :
    ∃ f nm, jget (parsedMetaOf m) "file" = some f ∧
      jget (parsedMetaOf m) "name" = some nm := by
  simp only [transformMermaidBlock] at hok
  by_cases hkeys :
      (hasKey (parsedMetaOf m) "file" && hasKey (parsedMetaOf m) "name") = true
  · rw [if_pos hkeys] at hok
    cases hc : createRender env (jget (parsedMetaOf m) "file") value with
    | error e => rw [hc] at hok; simp at hok
    | ok fp =>
      rw [hc] at hok
      cases hjf : jget (parsedMetaOf m) "file" with
      | none =>
        exfalso
        simp only [createRender, hjf] at hc
        cases hc
      | some f =>
        rw [hjf] at hok
        cases hjn : jget (parsedMetaOf m) "name" with
        | none => rw [hjn] at hok; simp at hok
        | some nm => exact ⟨f, nm, rfl, rfl⟩
  · rw [if_neg hkeys] at hok; simp at hok

/-- When the parsed metadata carries string values for `file` and `name`
and `transformMermaidBlock` resolves, its payload is exactly the
replacement pair built from the raw `file` value, the `name` and the
`alt`. -/
theorem transformMermaidBlock_ok_some (env : Env) (m value nm f : String)
    (hf : jget (parsedMetaOf m) "file" = some f)
    (hn : jget (parsedMetaOf m) "name" = some nm) :
    ∀ r, transformMermaidBlock env (some m) value = .ok r →
      r = some (transformParsedMermaidBlock f nm (jget (parsedMetaOf m) "alt")) := by
  intro r h
  simp only [transformMermaidBlock] at h
  rw [jget_some_hasKey hf, jget_some_hasKey hn] at h
  simp only [Bool.and_self, if_true] at h
  cases hc : createRender env (jget (parsedMetaOf m) "file") value with
  | error e => rw [hc] at h; simp at h
  | ok fp =>
    rw [hc, hf, hn] at h
    simp only [Except.ok.injEq] at h
    exact h.symm

/-! ## Claim C2 -/

/-- Claim C2 (confirmed): for every Target Block whose parsed metadata
carries both `file` and `name`, the transformer returns exactly two
sibling nodes, an imageReference and a definition, whose `identifier`
fields are the lower-cased `name`, whose `label` fields are the
original-case `name`, whose imageReference `alt` is the metadata `alt`
with fallback to `name`, and whose definition `title` is the metadata
`alt`. -/
theorem C2_replacement_pair (env : Env) (m value nm f : String) (l : List MNode)
    (hf : jget (parsedMetaOf m) "file" = some f)
    (hn : jget (parsedMetaOf m) "name" = some nm)
    (hok : transformer env (.code (some "mermaid") (some m) value) = .ok l) :
    l = [.imageReference (toLowerCase nm) nm "shortcut"
           ((jget (parsedMetaOf m) "alt").getD nm),
         .definition (toLowerCase nm) nm f (jget (parsedMetaOf m) "alt")] := by
  rw [transformer_code] at hok
  simp only [beq_self_eq_true, if_true] at hok
  cases hb : transformMermaidBlock env (some m) value with
  | error e => rw [hb] at hok; simp at hok
  | ok r =>
    have hr := transformMermaidBlock_ok_some env m value nm f hf hn r hb
    subst hr
    rw [hb] at hok
    simp only [transformParsedMermaidBlock, Except.ok.injEq] at hok
    exact hok.symm

/-- Witness for C2 at the repository's own example annotation. -/
theorem C2_witness :
    jget (parsedMetaOf "file=example.svg name=Example_Diagram") "file" =
      some "example.svg" ∧
    jget (parsedMetaOf "file=example.svg name=Example_Diagram") "name" =
      some "Example_Diagram" ∧
    ([MNode.imageReference "example_diagram" "Example_Diagram" "shortcut"
        "Example_Diagram",
      MNode.definition "example_diagram" "Example_Diagram" "example.svg" none] :
        List MNode) =
      [.imageReference (toLowerCase "Example_Diagram") "Example_Diagram" "shortcut"
         ((jget (parsedMetaOf "file=example.svg name=Example_Diagram") "alt").getD
           "Example_Diagram"),
       .definition (toLowerCase "Example_Diagram") "Example_Diagram" "example.svg"
         (jget (parsedMetaOf "file=example.svg name=Example_Diagram") "alt")] :=
  ⟨rfl, rfl,
    C2_replacement_pair envOk "file=example.svg name=Example_Diagram" "graph TD;"
      "Example_Diagram" "example.svg" _ rfl rfl rfl⟩

/-! ## Claim C9 -/

/-- Claim C9 (confirmed): every replacement pair's imageReference node
carries referenceType `"shortcut"` — never `"full"` and never
`"collapsed"`, for any input. -/
theorem C9_referenceType_shortcut (env : Env) (meta : Option String)
    (value : String) (p : MNode × MNode)
    (hok : transformMermaidBlock env meta value = .ok (some p)) :
    referenceTypeOf p.1 = some "shortcut" ∧
    referenceTypeOf p.1 ≠ some "full" ∧
    referenceTypeOf p.1 ≠ some "collapsed" := by
  cases meta with
  | none => simp [transformMermaidBlock] at hok
  | some m =>
    obtain ⟨f, nm, hjf, hjn⟩ := transformMermaidBlock_ok_keys env m value p hok
    have hr := transformMermaidBlock_ok_some env m value nm f hjf hjn (some p) hok
    simp only [Option.some.injEq] at hr
    rw [hr]
    refine ⟨rfl, ?_, ?_⟩ <;> simp [transformParsedMermaidBlock, referenceTypeOf]

/-- Witness for C9. -/
theorem C9_witness :
    transformMermaidBlock envOk (some "file=example.svg name=Example_Diagram")
        "graph TD;" =
      .ok (some (.imageReference "example_diagram" "Example_Diagram" "shortcut"
          "Example_Diagram",
        .definition "example_diagram" "Example_Diagram" "example.svg" none)) ∧
    (referenceTypeOf (MNode.imageReference "example_diagram" "Example_Diagram"
        "shortcut" "Example_Diagram") = some "shortcut" ∧
      referenceTypeOf (MNode.imageReference "example_diagram" "Example_Diagram"
        "shortcut" "Example_Diagram") ≠ some "full" ∧
      referenceTypeOf (MNode.imageReference "example_diagram" "Example_Diagram"
        "shortcut" "Example_Diagram") ≠ some "collapsed") :=
  ⟨rfl, C9_referenceType_shortcut envOk (some "file=example.svg name=Example_Diagram")
    "graph TD;" _ rfl⟩

/-! ## Claim C10 -/

/-- Claim C10 (confirmed): a `code` node with `lang = "mermaid"` and no
`meta` passes the candidate check (which tests only `type` and `lang`)
and then throws a `TypeError` when the metadata parse dereferences the
absent `meta`; the node is not passed through. -/
theorem C10_meta_absent_throws (env : Env) (value : String) :
    transformer env (.code (some "mermaid") none value) = .error .typeError := rfl

/-! ## Claim C7 -/

/-- Claim C7 (confirmed): the top-level entry point raises a structural
error on every node whose `type` is not `"root"`, and the root check
accepts every node whose `type` is `"root"`. -/
theorem C7_root_guard (env : Env) (n : MNode) :
    (nodeType n ≠ "root" → mermaidRender env n = .error (.notRoot (nodeType n))) ∧
    (nodeType n = "root" →
      mustRoot n = .ok n ∧ mermaidRender env n = mermaidGuardless env n) := by
  constructor
  · intro h
    have hm : mustRoot n = .error (.notRoot (nodeType n)) := by
      unfold mustRoot; rw [if_pos h]
    unfold mermaidRender
    rw [hm]
  · intro h
    have hm : mustRoot n = .ok n := by
      unfold mustRoot
      rw [if_neg (by simp [h])]
    refine ⟨hm, ?_⟩
    unfold mermaidRender
    rw [hm]

/-- Witness for C7: a paragraph leaf is rejected, a root is accepted. -/
theorem C7_witness :
    mermaidRender envOk (.other "paragraph" "x") = .error (.notRoot "paragraph") ∧
    mustRoot (.container "root" []) = .ok (.container "root" []) :=
  ⟨(C7_root_guard envOk (.other "paragraph" "x")).1 (by decide),
    ((C7_root_guard envOk (.container "root" [])).2 rfl).1⟩

/-! ## Claim C6 -/

/-- Claim C6 (corrected; this is the counterexample): the render step
resolves and returns `/doc/example.svg` (the document directory joined
with the declared `file`), but the definition node's `url` is the raw
`example.svg`, which differs from the resolved path. -/
theorem C6_counterexample :
    createRender envOk (some "example.svg") "graph TD;" = .ok "/doc/example.svg" ∧
    transformMermaidBlock envOk (some "file=example.svg name=Example_Diagram")
        "graph TD;" =
      .ok (some (.imageReference "example_diagram" "Example_Diagram" "shortcut"
          "Example_Diagram",
        .definition "example_diagram" "Example_Diagram" "example.svg" none)) ∧
    ("example.svg" : String) ≠ "/doc/example.svg" :=
  ⟨rfl, rfl, by decide⟩

/-- Claim C6 (amended): the definition node's `url` is the *raw* `file`
value exactly as written in the annotation; the resolved path returned
by the render step is discarded. -/
theorem C6_definition_url_is_raw_file (env : Env) (m value f : String)
    (p : MNode × MNode)
    (hf : jget (parsedMetaOf m) "file" = some f)
    (hok : transformMermaidBlock env (some m) value = .ok (some p)) :
    urlOf p.2 = some f := by
  obtain ⟨f2, nm, hjf2, hjn⟩ := transformMermaidBlock_ok_keys env m value p hok
  have hr := transformMermaidBlock_ok_some env m value nm f hf hjn (some p) hok
  simp only [Option.some.injEq] at hr
  rw [hr]
  simp [transformParsedMermaidBlock, urlOf]

/-- Witness for the amended C6. -/
theorem C6_witness :
    jget (parsedMetaOf "file=example.svg name=Example_Diagram") "file" =
      some "example.svg" ∧
    transformMermaidBlock envOk (some "file=example.svg name=Example_Diagram")
        "graph TD;" =
      .ok (some (.imageReference "example_diagram" "Example_Diagram" "shortcut"
          "Example_Diagram",
        .definition "example_diagram" "Example_Diagram" "example.svg" none)) ∧
    urlOf (MNode.definition "example_diagram" "Example_Diagram" "example.svg"
      none) = some "example.svg" :=
  ⟨rfl, rfl,
    C6_definition_url_is_raw_file envOk "file=example.svg name=Example_Diagram"
      "graph TD;" "example.svg" _ rfl rfl⟩

/-! ## Claim C5 -/

/-- Claim C5 (corrected; this is the counterexample): with a render
engine that rejects, transforming a document containing a Target Block
does *not* complete — the rejection unwinds the whole traversal and the
entry point rejects with the render error; no rewritten tree and no
diagnostic is produced, so the claim's recovery behaviour does not hold
at this input. -/
theorem C5_counterexample :
    mermaidRender envBoom (.container "root"
      [.other "text" "hi",
       .code (some "mermaid") (some "file=a.svg name=A") "graph",
       .other "text" "bye"]) = .error (.renderError "boom") := rfl

/-- An erroring child makes the whole children pass error (the model's
rendering of `Promise.all` rejection), provided the children before it
resolve. -/
theorem transformMany_error_of (env : Env) (pre : List MNode) (tb : MNode)
    (post : List MNode) (e : TErr)
    (hpre : ∀ c ∈ pre, ∃ l, transformer env c = .ok l)
    (htb : transformer env tb = .error e) :
    transformMany env (pre ++ tb :: post) = .error e := by
  induction pre with
  | nil =>
    rw [List.nil_append, transformMany_cons, htb]
  | cons c cs ih =>
    obtain ⟨l, hl⟩ := hpre c (by simp)
    rw [List.cons_append, transformMany_cons, hl,
      ih (fun c' hc' => hpre c' (by simp [hc']))]

/-- Claim C5 (amended): a render or write failure for one Target Block
is *not* caught: it propagates out of the traversal, so the container's
transformation (and with it the whole document's) fails with that very
error instead of completing with a diagnostic. -/
theorem C5_failure_unwinds (env : Env) (t : String) (pre post : List MNode)
    (tb : MNode) (e : TErr)
    (hpre : ∀ c ∈ pre, ∃ l, transformer env c = .ok l)
    (htb : transformer env tb = .error e) :
    transformer env (.container t (pre ++ tb :: post)) = .error e := by
  rw [transformer_container, transformMany_error_of env pre tb post e hpre htb]

/-- Witness for the amended C5. -/
theorem C5_witness :
    (∀ c ∈ [MNode.other "text" "hi"], ∃ l, transformer envBoom c = .ok l) ∧
    transformer envBoom (.code (some "mermaid") (some "file=a.svg name=A")
      "graph") = .error (.renderError "boom") ∧
    transformer envBoom (.container "root"
      ([MNode.other "text" "hi"] ++
        MNode.code (some "mermaid") (some "file=a.svg name=A") "graph" ::
        [MNode.other "text" "bye"])) = .error (.renderError "boom") := by
  refine ⟨?_, rfl, ?_⟩
  · intro c hc
    simp only [List.mem_singleton] at hc
    subst hc
    exact ⟨[.other "text" "hi"], rfl⟩
  · exact C5_failure_unwinds envBoom "root" [.other "text" "hi"]
      [.other "text" "bye"]
      (.code (some "mermaid") (some "file=a.svg name=A") "graph")
      (.renderError "boom")
      (by
        intro c hc
        simp only [List.mem_singleton] at hc
        subst hc
        exact ⟨[.other "text" "hi"], rfl⟩)
      rfl

/-! ## Claim C3 -/

/-- Claim C3 (confirmed): nodes failing the candidate check (`type`,
`lang`) pass through unchanged — leaves exactly as they are, containers
with only their children recursively transformed — and a candidate whose
parsed metadata misses `file` or `name` passes through unchanged as
well; none of this is an error. -/
theorem C3_pass_through (env : Env) (n : MNode) :
    (isMermaidCandidate n = false → childrenOf n = none →
      transformer env n = .ok [n]) ∧
    (∀ t cs ms, n = .container t cs → transformMany env cs = .ok ms →
      transformer env n = .ok [.container t ms.flatten]) ∧
    (∀ m v, n = .code (some "mermaid") (some m) v →
      (hasKey (parsedMetaOf m) "file" && hasKey (parsedMetaOf m) "name") = false →
      transformer env n = .ok [n]) := by
  refine ⟨?_, ?_, ?_⟩
  · intro hcand hch
    cases n with
    | container t cs => simp [childrenOf] at hch
    | code lang meta v =>
      rw [transformer_code]
      simp only [isMermaidCandidate] at hcand
      rw [hcand]
      rfl
    | imageReference a b c d => rfl
    | definition a b c d => rfl
    | other t v => rfl
  · intro t cs ms hn hms
    subst hn
    rw [transformer_container, hms]
  · intro m v hn hkeys
    subst hn
    rw [transformer_code]
    simp only [beq_self_eq_true, if_true]
    simp only [transformMermaidBlock, hkeys]
    rfl

/-- Witness for C3: a text leaf, a paragraph container and a mermaid
block missing `name` all pass through. -/
theorem C3_witness :
    transformer envOk (.other "text" "hello") = .ok [.other "text" "hello"] ∧
    transformer envOk (.container "paragraph" [.other "text" "x"]) =
      .ok [.container "paragraph" [.other "text" "x"]] ∧
    transformer envOk (.code (some "mermaid") (some "file=a.svg") "g") =
      .ok [.code (some "mermaid") (some "file=a.svg") "g"] :=
  ⟨(C3_pass_through envOk (.other "text" "hello")).1 rfl rfl,
    (C3_pass_through envOk (.container "paragraph" [.other "text" "x"])).2.1
      "paragraph" [.other "text" "x"] [[.other "text" "x"]] rfl rfl,
    (C3_pass_through envOk (.code (some "mermaid") (some "file=a.svg") "g")).2.2
      "file=a.svg" "g" rfl (by decide)⟩

/-! ## Claim C1 -/

/-- A resolving children pass over an appended list splits into
resolving passes over the parts. -/
theorem transformMany_append_ok (env : Env) (xs ys : List MNode) :
    ∀ rs, transformMany env (xs ++ ys) = .ok rs →
      ∃ rxs rys, transformMany env xs = .ok rxs ∧
        transformMany env ys = .ok rys ∧ rs = rxs ++ rys := by
  induction xs with
  | nil => intro rs h; exact ⟨[], rs, rfl, h, rfl⟩
  | cons c cs ih =>
    intro rs h
    rw [List.cons_append, transformMany_cons] at h
    cases hc : transformer env c with
    | error e => rw [hc] at h; simp at h
    | ok l =>
      rw [hc] at h
      cases hrest : transformMany env (cs ++ ys) with
      | error e => rw [hrest] at h; simp at h
      | ok ls =>
        rw [hrest] at h
        simp only [Except.ok.injEq] at h
        obtain ⟨rxs, rys, h1, h2, h3⟩ := ih ls hrest
        refine ⟨l :: rxs, rys, ?_, h2, ?_⟩
        · rw [transformMany_cons, hc, h1]
        · rw [← h, h3]; rfl

/-- A node that is not a valid Target Block transforms (when it
resolves) to a single replacement node, never to a pair. -/
theorem transformer_ok_singleton (env : Env) (c : MNode) (l : List MNode)
    (hv : isValidTarget c = false) (h : transformer env c = .ok l) :
    ∃ x, l = [x] := by
  cases c with
  | container t cs =>
    rw [transformer_container] at h
    cases hm : transformMany env cs with
    | error e => rw [hm] at h; simp at h
    | ok ms =>
      rw [hm] at h
      simp only [Except.ok.injEq] at h
      exact ⟨_, h.symm⟩
  | code lang meta v =>
    rw [transformer_code] at h
    cases hl : (lang == some "mermaid") with
    | false => rw [hl] at h; simp only [Bool.false_eq_true, if_false,
        Except.ok.injEq] at h; exact ⟨_, h.symm⟩
    | true =>
      rw [hl] at h
      simp only [if_true] at h
      cases meta with
      | none => simp [transformMermaidBlock] at h
      | some m =>
        simp only [isValidTarget, hl, Bool.true_and] at hv
        simp only [transformMermaidBlock, hv, Bool.false_eq_true, if_false,
          Except.ok.injEq] at h
        exact ⟨_, h.symm⟩
  | imageReference a b c d =>
    simp only [transformer, Except.ok.injEq] at h
    exact ⟨_, h.symm⟩
  | definition a b c d =>
    simp only [transformer, Except.ok.injEq] at h
    exact ⟨_, h.symm⟩
  | other t v =>
    simp only [transformer, Except.ok.injEq] at h
    exact ⟨_, h.symm⟩

/-- A resolving children pass over nodes that are not valid Target
Blocks yields one singleton per child, in order. -/
theorem transformMany_singletons (env : Env) (xs : List MNode)
    (hv : ∀ c ∈ xs, isValidTarget c = false) :
    ∀ rxs, transformMany env xs = .ok rxs →
      ∃ ys, rxs = ys.map (fun y => [y]) ∧
        List.Forall₂ (fun c y => transformer env c = .ok [y]) xs ys := by
  induction xs with
  | nil =>
    intro rxs h
    simp only [transformMany, Except.ok.injEq] at h
    exact ⟨[], by simp [← h], List.Forall₂.nil⟩
  | cons c cs ih =>
    intro rxs h
    rw [transformMany_cons] at h
    cases hc : transformer env c with
    | error e => rw [hc] at h; simp at h
    | ok l =>
      rw [hc] at h
      cases hrest : transformMany env cs with
      | error e => rw [hrest] at h; simp at h
      | ok ls =>
        rw [hrest] at h
        simp only [Except.ok.injEq] at h
        obtain ⟨x, hx⟩ := transformer_ok_singleton env c l (hv c (by simp)) hc
        subst hx
        obtain ⟨ys, hys1, hys2⟩ := ih (fun c' hc' => hv c' (by simp [hc'])) ls hrest
        refine ⟨x :: ys, ?_, List.Forall₂.cons hc hys2⟩
        rw [← h, hys1]
        rfl

/-- Flattening a list of singletons is the identity. -/
theorem flatten_map_singleton (ys : List MNode) :
    (ys.map (fun y => [y])).flatten = ys := by
  induction ys with
  | nil => rfl
  | cons y ys ih => simp [ih]

/-- Claim C1 (confirmed): in a container whose children are `pre`, a
valid (and successfully rendered) Target Block `tb`, then `post`, where
no element of `pre`/`post` is itself a valid Target Block, the
transformed children sequence has length N+1, carries `tb`'s
image-reference at position `i = pre.length` and its definition at
`i+1`, and every other child appears — recursively transformed — in its
original relative order. -/
theorem C1_order_preservation (env : Env) (t : String) (pre post : List MNode)
    (tb img dfn : MNode) (res : List MNode)
    (hpre : ∀ c ∈ pre, isValidTarget c = false)
    (hpost : ∀ c ∈ post, isValidTarget c = false)
    (htb : transformer env tb = .ok [img, dfn])
    (hok : transformer env (.container t (pre ++ tb :: post)) = .ok res) :
    ∃ pres posts : List MNode,
      List.Forall₂ (fun c y => transformer env c = .ok [y]) pre pres ∧
      List.Forall₂ (fun c y => transformer env c = .ok [y]) post posts ∧
      res = [.container t (pres ++ img :: dfn :: posts)] ∧
      (pres ++ img :: dfn :: posts).length = (pre ++ tb :: post).length + 1 ∧
      (pres ++ img :: dfn :: posts)[pre.length]? = some img ∧
      (pres ++ img :: dfn :: posts)[pre.length + 1]? = some dfn := by
  rw [transformer_container] at hok
  cases hm : transformMany env (pre ++ tb :: post) with
  | error e => rw [hm] at hok; simp at hok
  | ok ms =>
    rw [hm] at hok
    simp only [Except.ok.injEq] at hok
    obtain ⟨rpre, rrest, h1, h2, h3⟩ := transformMany_append_ok env pre (tb :: post) ms hm
    rw [transformMany_cons, htb] at h2
    cases hrest : transformMany env post with
    | error e => rw [hrest] at h2; simp at h2
    | ok rposts =>
      rw [hrest] at h2
      simp only [Except.ok.injEq] at h2
      obtain ⟨pres, hpres1, hpres2⟩ := transformMany_singletons env pre hpre rpre h1
      obtain ⟨posts, hposts1, hposts2⟩ := transformMany_singletons env post hpost rposts hrest
      have hlenpre : pres.length = pre.length := (List.Forall₂.length_eq hpres2).symm
      have hlenpost : posts.length = post.length := (List.Forall₂.length_eq hposts2).symm
      have hflat : ms.flatten = pres ++ img :: dfn :: posts := by
        rw [h3, ← h2, hpres1, hposts1]
        simp [flatten_map_singleton]
      refine ⟨pres, posts, hpres2, hposts2, ?_, ?_, ?_, ?_⟩
      · rw [← hok, hflat]
      · simp only [List.length_append, List.length_cons, hlenpre, hlenpost]
        omega
      · rw [← hlenpre, List.getElem?_append_right (Nat.le_refl _), Nat.sub_self]
        rfl
      · rw [← hlenpre, List.getElem?_append_right (Nat.le_add_right _ _),
          Nat.add_sub_cancel_left]
        simp

/-- Witness for C1 at the repository's own example document. -/
theorem C1_witness :
    (∀ c ∈ [MNode.other "text" "hi"], isValidTarget c = false) ∧
    (∀ c ∈ [MNode.other "text" "bye"], isValidTarget c = false) ∧
    transformer envOk
      (.code (some "mermaid") (some "file=example.svg name=Example_Diagram") "g") =
      .ok [.imageReference "example_diagram" "Example_Diagram" "shortcut"
            "Example_Diagram",
          .definition "example_diagram" "Example_Diagram" "example.svg" none] ∧
    transformer envOk (.container "root"
      ([MNode.other "text" "hi"] ++
        MNode.code (some "mermaid") (some "file=example.svg name=Example_Diagram")
          "g" :: [MNode.other "text" "bye"])) =
      .ok [.container "root"
        [.other "text" "hi",
         .imageReference "example_diagram" "Example_Diagram" "shortcut"
           "Example_Diagram",
         .definition "example_diagram" "Example_Diagram" "example.svg" none,
         .other "text" "bye"]] ∧
    (∃ pres posts : List MNode,
      List.Forall₂ (fun c y => transformer envOk c = .ok [y])
        [MNode.other "text" "hi"] pres ∧
      List.Forall₂ (fun c y => transformer envOk c = .ok [y])
        [MNode.other "text" "bye"] posts ∧
      ([MNode.container "root"
        [.other "text" "hi",
         .imageReference "example_diagram" "Example_Diagram" "shortcut"
           "Example_Diagram",
         .definition "example_diagram" "Example_Diagram" "example.svg" none,
         .other "text" "bye"]] : List MNode) =
        [.container "root" (pres ++
          MNode.imageReference "example_diagram" "Example_Diagram" "shortcut"
            "Example_Diagram" ::
          MNode.definition "example_diagram" "Example_Diagram" "example.svg" none ::
          posts)] ∧
      (pres ++
        MNode.imageReference "example_diagram" "Example_Diagram" "shortcut"
          "Example_Diagram" ::
        MNode.definition "example_diagram" "Example_Diagram" "example.svg" none ::
        posts).length =
        ([MNode.other "text" "hi"] ++
          MNode.code (some "mermaid") (some "file=example.svg name=Example_Diagram")
            "g" :: [MNode.other "text" "bye"]).length + 1 ∧
      (pres ++
        MNode.imageReference "example_diagram" "Example_Diagram" "shortcut"
          "Example_Diagram" ::
        MNode.definition "example_diagram" "Example_Diagram" "example.svg" none ::
        posts)[([MNode.other "text" "hi"] : List MNode).length]? =
        some (.imageReference "example_diagram" "Example_Diagram" "shortcut"
          "Example_Diagram") ∧
      (pres ++
        MNode.imageReference "example_diagram" "Example_Diagram" "shortcut"
          "Example_Diagram" ::
        MNode.definition "example_diagram" "Example_Diagram" "example.svg" none ::
        posts)[([MNode.other "text" "hi"] : List MNode).length + 1]? =
        some (.definition "example_diagram" "Example_Diagram" "example.svg" none)) :=
  ⟨by decide, by decide, rfl, rfl,
    C1_order_preservation envOk "root" [MNode.other "text" "hi"]
      [MNode.other "text" "bye"]
      (.code (some "mermaid") (some "file=example.svg name=Example_Diagram") "g")
      (.imageReference "example_diagram" "Example_Diagram" "shortcut"
        "Example_Diagram")
      (.definition "example_diagram" "Example_Diagram" "example.svg" none)
      [.container "root"
        [.other "text" "hi",
         .imageReference "example_diagram" "Example_Diagram" "shortcut"
           "Example_Diagram",
         .definition "example_diagram" "Example_Diagram" "example.svg" none,
         .other "text" "bye"]]
      (by decide) (by decide) rfl rfl⟩

/-! ## Claim C8 -/

/-- Unfolding equation of `transformerI` on a container. -/
theorem transformerI_container (env : Env) (t : String) (cs : List INode)
    (nid ctr : Nat) :
    transformerI env (.container t cs nid) ctr =
      match transformManyI env cs ctr with
      | .error e => .error e
      | .ok (mappings, c2) => .ok ([.container t mappings.flatten nid], c2) := rfl

/-- Unfolding equation of `transformerI` on a code node. -/
theorem transformerI_code (env : Env) (lang meta : Option String)
    (value : String) (nid ctr : Nat) :
    transformerI env (.code lang meta value nid) ctr =
      if lang == some "mermaid" then
        match transformMermaidBlock env meta value with
        | .error e => .error e
        | .ok none => .ok ([.code lang meta value nid], ctr)
        | .ok (some (m, d)) =>
          .ok ([annotLeaf m ctr, annotLeaf d (ctr + 1)], ctr + 2)
      else .ok ([.code lang meta value nid], ctr) := rfl

/-- Unfolding equation of `transformManyI` on a cons cell. -/
theorem transformManyI_cons (env : Env) (c : INode) (cs : List INode)
    (ctr : Nat) :
    transformManyI env (c :: cs) ctr =
      match transformerI env c ctr with
      | .error e => .error e
      | .ok (l, c1) =>
        match transformManyI env cs c1 with
        | .error e => .error e
        | .ok (ls, c2) => .ok (l :: ls, c2) := rfl

/-- Unfolding equation of `allIL` on nil. -/
theorem allIL_nil : allIL [] = [] := rfl

/-- Unfolding equation of `allIL` on a cons cell. -/
theorem allIL_cons (c : INode) (cs : List INode) :
    allIL (c :: cs) = allI c ++ allIL cs := rfl

/-- Unfolding equation of `allI` on a container. -/
theorem allI_container (t : String) (cs : List INode) (nid : Nat) :
    allI (.container t cs nid) = .container t cs nid :: allIL cs := rfl

/-- `allIL` distributes over list append. -/
theorem allIL_append (l₁ l₂ : List INode) :
    allIL (l₁ ++ l₂) = allIL l₁ ++ allIL l₂ := by
  induction l₁ with
  | nil => rfl
  | cons a l ih => simp [allIL_cons, ih, List.append_assoc]

/-- A leaf annotation collects to itself. -/
theorem allI_annotLeaf (y : MNode) (i : Nat) :
    allI (annotLeaf y i) = [annotLeaf y i] := by
  cases y <;> rfl

/-- The identity carried by an annotated leaf is the annotation. -/
theorem inid_annotLeaf (y : MNode) (i : Nat) : inid (annotLeaf y i) = i := by
  cases y <;> rfl

/-- The pair produced by `transformMermaidBlock` is always an
imageReference and a definition. -/
theorem transformMermaidBlock_shape (env : Env) (meta : Option String)
    (v : String) (m d : MNode)
    (h : transformMermaidBlock env meta v = .ok (some (m, d))) :
    (∃ a b c e, m = .imageReference a b c e) ∧
    (∃ a b c e, d = .definition a b c e) := by
  cases meta with
  | none => simp [transformMermaidBlock] at h
  | some s =>
    obtain ⟨f, nm, hjf, hjn⟩ := transformMermaidBlock_ok_keys env s v (m, d) h
    have hr := transformMermaidBlock_ok_some env s v nm f hjf hjn (some (m, d)) h
    simp only [Option.some.injEq, transformParsedMermaidBlock,
      Prod.mk.injEq] at hr
    obtain ⟨hm, hd⟩ := hr
    exact ⟨⟨_, _, _, _, hm⟩, ⟨_, _, _, _, hd⟩⟩

/-- Replacement-pair nodes, annotated, satisfy `isReplacementNode`. -/
theorem isReplacementNode_annotLeaf_pair (env : Env) (meta : Option String)
    (v : String) (m d : MNode) (i i' : Nat)
    (h : transformMermaidBlock env meta v = .ok (some (m, d))) :
    isReplacementNode (annotLeaf m i) = true ∧
    isReplacementNode (annotLeaf d i') = true := by
  obtain ⟨⟨a, b, c, e, hm⟩, ⟨a', b', c', e', hd⟩⟩ :=
    transformMermaidBlock_shape env meta v m d h
  subst hm; subst hd
  exact ⟨rfl, rfl⟩

/-- Main identity-tracking invariant of the transformer, by strong
induction on the node size: every node of a resolved result either
shares its identity with an input node — and then is that node itself,
or that container with its children reassigned — or carries a fresh
identity (at least the incoming counter) and is a replacement-pair
node; and the counter never decreases. -/
theorem identI_main (env : Env) (fuel : Nat) :
    (∀ (n : INode) (ctr : Nat) (r : List INode) (ctr' : Nat),
        sizeOf n ≤ fuel → transformerI env n ctr = .ok (r, ctr') →
        ctr ≤ ctr' ∧
        ∀ x ∈ allIL r,
          (∃ m ∈ allI n, inid m = inid x ∧ sameShell m x) ∨
          (ctr ≤ inid x ∧ isReplacementNode x = true)) ∧
    (∀ (cs : List INode) (ctr : Nat) (rs : List (List INode)) (ctr' : Nat),
        sizeOf cs ≤ fuel → transformManyI env cs ctr = .ok (rs, ctr') →
        ctr ≤ ctr' ∧
        ∀ x ∈ allIL rs.flatten,
          (∃ m ∈ allIL cs, inid m = inid x ∧ sameShell m x) ∨
          (ctr ≤ inid x ∧ isReplacementNode x = true)) := by
  induction fuel using Nat.strong_induction_on with
  | _ fuel ih =>
    constructor
    · intro n ctr r ctr' hsz h
      cases n with
      | container t cs nid =>
        rw [transformerI_container] at h
        cases hm : transformManyI env cs ctr with
        | error e => rw [hm] at h; simp at h
        | ok res =>
          obtain ⟨mappings, c2⟩ := res
          simp only [hm, Except.ok.injEq, Prod.mk.injEq] at h
          obtain ⟨hr, hc⟩ := h
          subst hc
          have hcs : sizeOf cs < fuel := by
            have := @INode.container.sizeOf_spec t cs nid
            omega
          obtain ⟨hmono, hmem⟩ :=
            (ih (sizeOf cs) hcs).2 cs ctr mappings c2 (Nat.le_refl _) hm
          refine ⟨hmono, ?_⟩
          intro x hx
          rw [← hr, allIL_cons, allIL_nil, List.append_nil,
            allI_container, List.mem_cons] at hx
          rcases hx with hx | hx
          · left
            refine ⟨.container t cs nid, ?_, ?_, ?_⟩
            · rw [allI_container]
              exact List.mem_cons_self _ _
            · rw [hx]; rfl
            · exact Or.inr ⟨t, cs, mappings.flatten, nid, rfl, hx⟩
          · rcases hmem x hx with ⟨m, hmm, hid, hsh⟩ | hfreshx
            · left
              refine ⟨m, ?_, hid, hsh⟩
              rw [allI_container]
              exact List.mem_cons_of_mem _ hmm
            · right; exact hfreshx
      | code lang meta v nid =>
        rw [transformerI_code] at h
        cases hl : (lang == some "mermaid") with
        | false =>
          rw [hl] at h
          simp only [Bool.false_eq_true, if_false, Except.ok.injEq,
            Prod.mk.injEq] at h
          obtain ⟨hr, hc⟩ := h
          subst hc
          refine ⟨Nat.le_refl _, ?_⟩
          intro x hx
          rw [← hr, allIL_cons, allIL_nil, List.append_nil] at hx
          simp only [allI, List.mem_singleton] at hx
          subst hx
          exact Or.inl ⟨_, List.mem_singleton_self _, rfl, Or.inl rfl⟩
        | true =>
          rw [hl] at h
          simp only [if_true] at h
          cases hb : transformMermaidBlock env meta v with
          | error e => rw [hb] at h; simp at h
          | ok payload =>
            cases payload with
            | none =>
              simp only [hb, Except.ok.injEq, Prod.mk.injEq] at h
              obtain ⟨hr, hc⟩ := h
              subst hc
              refine ⟨Nat.le_refl _, ?_⟩
              intro x hx
              rw [← hr, allIL_cons, allIL_nil, List.append_nil] at hx
              simp only [allI, List.mem_singleton] at hx
              subst hx
              exact Or.inl ⟨_, List.mem_singleton_self _, rfl, Or.inl rfl⟩
            | some pr =>
              obtain ⟨md, dd⟩ := pr
              simp only [hb, Except.ok.injEq, Prod.mk.injEq] at h
              obtain ⟨hr, hc⟩ := h
              subst hc
              refine ⟨by omega, ?_⟩
              intro x hx
              rw [← hr, allIL_cons, allIL_cons, allIL_nil, List.append_nil,
                allI_annotLeaf, allI_annotLeaf] at hx
              rw [show ([annotLeaf md ctr] ++ [annotLeaf dd (ctr + 1)] :
                  List INode) = [annotLeaf md ctr, annotLeaf dd (ctr + 1)]
                from rfl, List.mem_cons, List.mem_singleton] at hx
              obtain ⟨hrep1, hrep2⟩ :=
                isReplacementNode_annotLeaf_pair env meta v md dd ctr (ctr + 1) hb
              rcases hx with hx | hx
              · right
                subst hx
                rw [inid_annotLeaf]
                exact ⟨Nat.le_refl _, hrep1⟩
              · right
                subst hx
                rw [inid_annotLeaf]
                exact ⟨Nat.le_succ _, hrep2⟩
      | imageReference a b c e nid =>
        simp only [transformerI, Except.ok.injEq, Prod.mk.injEq] at h
        obtain ⟨hr, hc⟩ := h
        subst hc
        refine ⟨Nat.le_refl _, ?_⟩
        intro x hx
        rw [← hr, allIL_cons, allIL_nil, List.append_nil] at hx
        simp only [allI, List.mem_singleton] at hx
        subst hx
        exact Or.inl ⟨_, List.mem_singleton_self _, rfl, Or.inl rfl⟩
      | definition a b c e nid =>
        simp only [transformerI, Except.ok.injEq, Prod.mk.injEq] at h
        obtain ⟨hr, hc⟩ := h
        subst hc
        refine ⟨Nat.le_refl _, ?_⟩
        intro x hx
        rw [← hr, allIL_cons, allIL_nil, List.append_nil] at hx
        simp only [allI, List.mem_singleton] at hx
        subst hx
        exact Or.inl ⟨_, List.mem_singleton_self _, rfl, Or.inl rfl⟩
      | other t v nid =>
        simp only [transformerI, Except.ok.injEq, Prod.mk.injEq] at h
        obtain ⟨hr, hc⟩ := h
        subst hc
        refine ⟨Nat.le_refl _, ?_⟩
        intro x hx
        rw [← hr, allIL_cons, allIL_nil, List.append_nil] at hx
        simp only [allI, List.mem_singleton] at hx
        subst hx
        exact Or.inl ⟨_, List.mem_singleton_self _, rfl, Or.inl rfl⟩
    · intro cs ctr rs ctr' hsz h
      cases cs with
      | nil =>
        simp only [transformManyI, Except.ok.injEq, Prod.mk.injEq] at h
        obtain ⟨hr, hc⟩ := h
        subst hc
        refine ⟨Nat.le_refl _, ?_⟩
        intro x hx
        rw [← hr] at hx
        simp [allIL_nil] at hx
      | cons c rest =>
        rw [transformManyI_cons] at h
        cases hc1 : transformerI env c ctr with
        | error e => rw [hc1] at h; simp at h
        | ok res1 =>
          obtain ⟨l, c1⟩ := res1
          simp only [hc1] at h
          cases hc2 : transformManyI env rest c1 with
          | error e => simp [hc2] at h
          | ok res2 =>
            obtain ⟨ls, c2⟩ := res2
            simp only [hc2, Except.ok.injEq, Prod.mk.injEq] at h
            obtain ⟨hr, hc⟩ := h
            subst hc
            have hszc : sizeOf c < fuel := by
              have := @List.cons.sizeOf_spec INode _ c rest
              omega
            have hszrest : sizeOf rest < fuel := by
              have := @List.cons.sizeOf_spec INode _ c rest
              omega
            obtain ⟨hm1, hx1⟩ :=
              (ih (sizeOf c) hszc).1 c ctr l c1 (Nat.le_refl _) hc1
            obtain ⟨hm2, hx2⟩ :=
              (ih (sizeOf rest) hszrest).2 rest c1 ls c2 (Nat.le_refl _) hc2
            refine ⟨Nat.le_trans hm1 hm2, ?_⟩
            intro x hx
            rw [← hr] at hx
            rw [show (l :: ls).flatten = l ++ ls.flatten from rfl,
              allIL_append] at hx
            rcases List.mem_append.mp hx with hx | hx
            · rcases hx1 x hx with ⟨m, hmm, hid, hsh⟩ | ⟨hle, hrep⟩
              · left
                refine ⟨m, ?_, hid, hsh⟩
                rw [allIL_cons]
                exact List.mem_append_left _ hmm
              · right; exact ⟨hle, hrep⟩
            · rcases hx2 x hx with ⟨m, hmm, hid, hsh⟩ | ⟨hle, hrep⟩
              · left
                refine ⟨m, ?_, hid, hsh⟩
                rw [allIL_cons]
                exact List.mem_append_right _ hmm
              · right; exact ⟨Nat.le_trans hm1 hle, hrep⟩

/-- Claim C8 (corrected; this is the counterexample): the transformer
*does* mutate an input node in place.  On a root holding one valid
Target Block, the returned node carries the root's own identity (it is
the same object) but different content — its `children` array was
reassigned by `a.children = mappings.flat()`. -/
theorem C8_counterexample :
    transformerI envOk
      (.container "root"
        [.code (some "mermaid") (some "file=a.svg name=A") "graph" 1] 0) 2 =
      .ok ([.container "root"
        [.imageReference "a" "A" "shortcut" "A" 2,
         .definition "a" "A" "a.svg" none 3] 0], 4) ∧
    inid (.container "root"
        [.imageReference "a" "A" "shortcut" "A" 2,
         .definition "a" "A" "a.svg" none 3] 0) =
      inid (.container "root"
        [.code (some "mermaid") (some "file=a.svg name=A") "graph" 1] 0) ∧
    (INode.container "root"
        [.imageReference "a" "A" "shortcut" "A" 2,
         .definition "a" "A" "a.svg" none 3] 0) ≠
      .container "root"
        [.code (some "mermaid") (some "file=a.svg name=A") "graph" 1] 0 :=
  ⟨rfl, rfl, by simp⟩

/-- Claim C8 (amended): containers are mutated in place — the same
container object comes back with its `children` array reassigned — and
that is the only mutation: every output node that shares an input
identity either *is* that input node unchanged or is that input
container with reassigned children (same `type`, same identity), and
every other output node has a fresh identity (shared with no input
node) and is a newly constructed imageReference or definition. -/
theorem C8_amended (env : Env) (tree : INode) (ctr ctr' : Nat)
    (out : List INode)
    (hfresh : ∀ m ∈ allI tree, inid m < ctr)
    (h : transformerI env tree ctr = .ok (out, ctr')) :
    ∀ x ∈ allIL out,
      (∃ m ∈ allI tree, inid m = inid x ∧
        (x = m ∨ ∃ t cs cs' i, m = .container t cs i ∧ x = .container t cs' i)) ∨
      ((∀ m ∈ allI tree, inid m ≠ inid x) ∧ isReplacementNode x = true) := by
  intro x hx
  have hmain :=
    ((identI_main env (sizeOf tree)).1 tree ctr out ctr' (Nat.le_refl _) h).2 x hx
  rcases hmain with ⟨m, hm, hid, hshell⟩ | ⟨hle, hrep⟩
  · left
    refine ⟨m, hm, hid, ?_⟩
    rcases hshell with h1 | ⟨t, cs, cs', i, h1, h2⟩
    · exact Or.inl h1.symm
    · exact Or.inr ⟨t, cs, cs', i, h1, h2⟩
  · right
    refine ⟨?_, hrep⟩
    intro m hm
    have := hfresh m hm
    omega

/-- Witness for the amended C8. -/
theorem C8_witness :
    (∀ m ∈ allI (INode.container "root"
        [.code (some "mermaid") (some "file=a.svg name=A") "graph" 1] 0),
      inid m < 2) ∧
    transformerI envOk
      (.container "root"
        [.code (some "mermaid") (some "file=a.svg name=A") "graph" 1] 0) 2 =
      .ok ([.container "root"
        [.imageReference "a" "A" "shortcut" "A" 2,
         .definition "a" "A" "a.svg" none 3] 0], 4) ∧
    (∀ x ∈ allIL [INode.container "root"
        [.imageReference "a" "A" "shortcut" "A" 2,
         .definition "a" "A" "a.svg" none 3] 0],
      (∃ m ∈ allI (INode.container "root"
          [.code (some "mermaid") (some "file=a.svg name=A") "graph" 1] 0),
        inid m = inid x ∧
        (x = m ∨ ∃ t cs cs' i, m = .container t cs i ∧ x = .container t cs' i)) ∨
      ((∀ m ∈ allI (INode.container "root"
          [.code (some "mermaid") (some "file=a.svg name=A") "graph" 1] 0),
        inid m ≠ inid x) ∧ isReplacementNode x = true)) :=
  ⟨by decide, rfl,
    C8_amended envOk
      (.container "root"
        [.code (some "mermaid") (some "file=a.svg name=A") "graph" 1] 0) 2 4
      [.container "root"
        [.imageReference "a" "A" "shortcut" "A" 2,
         .definition "a" "A" "a.svg" none 3] 0]
      (by decide) rfl⟩

end RemarkMermaid
